import Mathlib

/-!
Verification of the wbc guessing-game core: a shallow embedding of the
scoring engine, guess validation, the guess upsert and the submit flow,
translated from `src/store.rs`, `src/models.rs` and `src/controllers.rs`.
Strings are modelled as Lean strings; Rust's ASCII case folding
(`to_lowercase`, `to_uppercase`, `eq_ignore_ascii_case` on ASCII data) is
modelled by a character-wise ASCII case map.
-/

namespace WBC

/-- ASCII lowercasing of one character. -/
def asciiLower (c : Char) : Char :=
  if 'A' ≤ c ∧ c ≤ 'Z' then Char.ofNat (c.toNat + 32) else c

/-- ASCII uppercasing of one character. -/
def asciiUpper (c : Char) : Char :=
  if 'a' ≤ c ∧ c ≤ 'z' then Char.ofNat (c.toNat - 32) else c

/-- Models Rust `str::to_lowercase` on the ASCII data this program handles. -/
def lower (s : String) : String := String.mk (s.data.map asciiLower)

/-- Models Rust `str::to_uppercase` on the ASCII data this program handles. -/
def upperStr (s : String) : String := String.mk (s.data.map asciiUpper)

/-- Models Rust `str::eq_ignore_ascii_case`. -/
def eqIgnoreCase (a b : String) : Bool := lower a == lower b

theorem eqIgnoreCase_iff (a b : String) : eqIgnoreCase a b = true ↔ lower a = lower b := by
  simp [eqIgnoreCase]

theorem eqIgnoreCase_refl (a : String) : eqIgnoreCase a a = true := by
  simp [eqIgnoreCase]

/-- `models.rs`: a driver of the roster. -/
structure Driver where
  number : Nat
  code : String
  name : String
deriving DecidableEq

/-- `models.rs`: a ranked five-driver prediction for one race. -/
structure Guess where
  race : String
  username : String
  p1 : String
  p2 : String
  p3 : String
  p4 : String
  p5 : String
deriving DecidableEq

/-- `models.rs`: the official top-five finishing order of one race. -/
structure RaceResult where
  race : String
  p1 : String
  p2 : String
  p3 : String
  p4 : String
  p5 : String
deriving DecidableEq

/-- `models.rs`: a guess together with the points it scored. -/
structure ScoredGuess where
  guess : Guess
  points : Nat
deriving DecidableEq

/-- `models.rs`: a registered user record. -/
structure User where
  token : String
  username : String
  password : String
  country : String
deriving DecidableEq

/-- `store.rs` scoring constants. -/
def CORRECT_PODIUM : Nat := 3

def CORRECT_FIVE : Nat := 6

def WRONG_PLACE : Nat := 1

def PARLAY : Nat := 4

/-- The `result_positions` array of `Store::score_guess`. -/
def resultPositions (r : RaceResult) : List String := [r.p1, r.p2, r.p3, r.p4, r.p5]

/-- The `guess_positions` array of `Store::score_guess`. -/
def guessPositions (g : Guess) : List String := [g.p1, g.p2, g.p3, g.p4, g.p5]

/-- One iteration of the scoring loop of `Store::score_guess`: the points
position `pos` contributes for guessed code `gd` against the result code `rd`
at that position, with `rps` the result's five codes. -/
def posPoints (pos : Nat) (gd rd : String) (rps : List String) : Nat :=
  if eqIgnoreCase gd rd then (if pos < 3 then CORRECT_PODIUM else CORRECT_FIVE)
  else if rps.any (fun rdr => eqIgnoreCase gd rdr) then WRONG_PLACE
  else 0

/-- The scoring loop of `Store::score_guess` unrolled over its five
iterations: the running total before the parlay check. -/
def preBonus (g : Guess) (r : RaceResult) : Nat :=
  posPoints 0 g.p1 r.p1 (resultPositions r) + posPoints 1 g.p2 r.p2 (resultPositions r) +
    posPoints 2 g.p3 r.p3 (resultPositions r) + posPoints 3 g.p4 r.p4 (resultPositions r) +
    posPoints 4 g.p5 r.p5 (resultPositions r)

/-- `Store::score_guess`: the result map is an association list looked up by
the guess's race name exactly as stored (`HashMap::get`). -/
def score_guess (guess : Guess) (normalizedResults : List (String × RaceResult)) : Nat :=
  match normalizedResults.lookup guess.race with
  | none => 0
  | some result =>
    let score := preBonus guess result
    if score = 3 * CORRECT_PODIUM + 2 * CORRECT_FIVE then score + PARLAY else score

/-- Association-list insert with map-overwrite semantics: replaces the value
at an existing key, otherwise appends (models `HashMap::collect`, later
entries winning). -/
def insertAssoc (m : List (String × RaceResult)) (k : String) (v : RaceResult) :
    List (String × RaceResult) :=
  match m with
  | [] => [(k, v)]
  | (k1, v1) :: rest => if k1 == k then (k, v) :: rest else (k1, v1) :: insertAssoc rest k v

/-- `Store::normalized_results`: the race-name-keyed index of results. -/
def normalized_results (rs : List RaceResult) : List (String × RaceResult) :=
  rs.foldl (fun m r => insertAssoc m r.race r) []

/-- All five positions of the guess exactly match the result, compared
case-insensitively. -/
def allExact (g : Guess) (r : RaceResult) : Bool :=
  eqIgnoreCase g.p1 r.p1 && eqIgnoreCase g.p2 r.p2 && eqIgnoreCase g.p3 r.p3 &&
    eqIgnoreCase g.p4 r.p4 && eqIgnoreCase g.p5 r.p5

/-- Every guessed code appears case-insensitively among the result's five codes. -/
def allPresent (g : Guess) (r : RaceResult) : Bool :=
  (guessPositions g).all (fun gd => (resultPositions r).any (fun rd => eqIgnoreCase gd rd))

/-- The exact-position points of a guess: the position-appropriate constant at
every exactly matching position, nothing elsewhere. -/
def exactPoints (g : Guess) (r : RaceResult) : Nat :=
  (if eqIgnoreCase g.p1 r.p1 then CORRECT_PODIUM else 0) +
    (if eqIgnoreCase g.p2 r.p2 then CORRECT_PODIUM else 0) +
    (if eqIgnoreCase g.p3 r.p3 then CORRECT_PODIUM else 0) +
    (if eqIgnoreCase g.p4 r.p4 then CORRECT_FIVE else 0) +
    (if eqIgnoreCase g.p5 r.p5 then CORRECT_FIVE else 0)

/-- The number of positions whose guessed code does not exactly match the result. -/
def misplacedCount (g : Guess) (r : RaceResult) : Nat :=
  (if eqIgnoreCase g.p1 r.p1 then 0 else 1) + (if eqIgnoreCase g.p2 r.p2 then 0 else 1) +
    (if eqIgnoreCase g.p3 r.p3 then 0 else 1) + (if eqIgnoreCase g.p4 r.p4 then 0 else 1) +
    (if eqIgnoreCase g.p5 r.p5 then 0 else 1)

/-- The scoring rule exactly as the spec words it, written independently of
`score_guess`: per position, 3 for an exact case-insensitive match in
positions 1 to 3, 6 in positions 4 and 5; else 1 when the guessed code
appears case-insensitively anywhere among the result's five codes, else 0;
after summing all five positions, 4 bonus points exactly when the sum is 21. -/
def specPosPoints (exact podium present : Bool) : Nat :=
  if exact then (if podium then 3 else 6) else if present then 1 else 0

/-- Whether a guessed code appears among the result's five codes (spec side). -/
def specPresent (r : RaceResult) (code : String) : Bool :=
  (resultPositions r).any (fun c => eqIgnoreCase code c)

/-- The whole scoring function as the spec words it: 0 when the result index
has no entry for the guess's race, otherwise the five-position sum plus the
parlay bonus exactly when that sum is 21. -/
def specScore (g : Guess) (m : List (String × RaceResult)) : Nat :=
  match m.lookup g.race with
  | none => 0
  | some r =>
    let s := specPosPoints (eqIgnoreCase g.p1 r.p1) true (specPresent r g.p1) +
      specPosPoints (eqIgnoreCase g.p2 r.p2) true (specPresent r g.p2) +
      specPosPoints (eqIgnoreCase g.p3 r.p3) true (specPresent r g.p3) +
      specPosPoints (eqIgnoreCase g.p4 r.p4) false (specPresent r g.p4) +
      specPosPoints (eqIgnoreCase g.p5 r.p5) false (specPresent r g.p5)
    if s = 21 then s + 4 else s

/-- The result fixture of the `store.rs` tests. -/
def test_result : RaceResult :=
  { race := "Test GP", p1 := "NOR", p2 := "VER", p3 := "PIA", p4 := "RUS", p5 := "LEC" }

/-- The result index of the `store.rs` tests. -/
def test_index : List (String × RaceResult) := [(test_result.race, test_result)]

/-- The `perfect_guess` fixture of the `store.rs` tests. -/
def perfect_guess : Guess :=
  { race := "Test GP", username := "test", p1 := "NOR", p2 := "VER", p3 := "PIA",
    p4 := "RUS", p5 := "LEC" }

/-- The `mixed_guess` fixture of the `store.rs` tests. -/
def mixed_guess : Guess :=
  { race := "Test GP", username := "test", p1 := "VER", p2 := "NOR", p3 := "PIA",
    p4 := "LEC", p5 := "RUS" }

/-- The `partial_guess` fixture of the `store.rs` tests. -/
def partial_guess : Guess :=
  { race := "Test GP", username := "test", p1 := "NOR", p2 := "HAM", p3 := "PIA",
    p4 := "ANT", p5 := "LEC" }

theorem posPoints_exact {gd rd : String} (pos : Nat) (rps : List String)
    (h : eqIgnoreCase gd rd = true) :
    posPoints pos gd rd rps = if pos < 3 then CORRECT_PODIUM else CORRECT_FIVE := by
  simp [posPoints, h]

theorem posPoints_present {gd rd : String} (pos : Nat) (rps : List String)
    (h : eqIgnoreCase gd rd = false) (hp : rps.any (fun rdr => eqIgnoreCase gd rdr) = true) :
    posPoints pos gd rd rps = WRONG_PLACE := by
  simp [posPoints, h, hp]

theorem posPoints_podium_cases (pos : Nat) (gd rd : String) (rps : List String)
    (hpos : pos < 3) :
    (eqIgnoreCase gd rd = true ∧ posPoints pos gd rd rps = 3) ∨
      (eqIgnoreCase gd rd = false ∧ posPoints pos gd rd rps ≤ 1) := by
  cases h : eqIgnoreCase gd rd with
  | true =>
    left
    refine ⟨rfl, ?_⟩
    simp [posPoints, h, hpos, CORRECT_PODIUM]
  | false =>
    right
    refine ⟨rfl, ?_⟩
    simp only [posPoints, h, Bool.false_eq_true, if_false]
    split <;> simp [WRONG_PLACE]

theorem posPoints_five_cases (pos : Nat) (gd rd : String) (rps : List String)
    (hpos : ¬ pos < 3) :
    (eqIgnoreCase gd rd = true ∧ posPoints pos gd rd rps = 6) ∨
      (eqIgnoreCase gd rd = false ∧ posPoints pos gd rd rps ≤ 1) := by
  cases h : eqIgnoreCase gd rd with
  | true =>
    left
    refine ⟨rfl, ?_⟩
    simp [posPoints, h, hpos, CORRECT_FIVE]
  | false =>
    right
    refine ⟨rfl, ?_⟩
    simp only [posPoints, h, Bool.false_eq_true, if_false]
    split <;> simp [WRONG_PLACE]

/-- The pre-bonus running total reaches 21 exactly when all five positions
match exactly: the sentinel is only reachable as 3 + 3 + 3 + 6 + 6. -/
theorem preBonus_eq_21_iff (g : Guess) (r : RaceResult) :
    preBonus g r = 21 ↔ allExact g r = true := by
  have b1 := posPoints_podium_cases 0 g.p1 r.p1 (resultPositions r) (by omega)
  have b2 := posPoints_podium_cases 1 g.p2 r.p2 (resultPositions r) (by omega)
  have b3 := posPoints_podium_cases 2 g.p3 r.p3 (resultPositions r) (by omega)
  have b4 := posPoints_five_cases 3 g.p4 r.p4 (resultPositions r) (by omega)
  have b5 := posPoints_five_cases 4 g.p5 r.p5 (resultPositions r) (by omega)
  unfold preBonus
  rcases b1 with ⟨h1, v1⟩ | ⟨h1, v1⟩ <;> rcases b2 with ⟨h2, v2⟩ | ⟨h2, v2⟩ <;>
    rcases b3 with ⟨h3, v3⟩ | ⟨h3, v3⟩ <;> rcases b4 with ⟨h4, v4⟩ | ⟨h4, v4⟩ <;>
    rcases b5 with ⟨h5, v5⟩ | ⟨h5, v5⟩ <;>
    simp [allExact, h1, h2, h3, h4, h5, v1, v2, v3, v4, v5] <;> omega

/-- Claim C1: `Store::score_guess` computes exactly the scoring rule the spec
states — 0 when the result index has no entry whose key equals the guess's
race; otherwise, per position, 3 for an exact case-insensitive match in
positions 1 to 3, 6 for an exact match in positions 4 and 5, 1 when the
guessed code misses its position but appears case-insensitively among the
result's five codes, 0 otherwise, and 4 bonus points exactly when the sum of
the five positions equals 21 — and a guess identical to the result in order
scores 3 * 3 + 2 * 6 + 4 = 25. -/
theorem score_guess_matches_spec :
    (∀ (g : Guess) (m : List (String × RaceResult)), score_guess g m = specScore g m) ∧
      score_guess perfect_guess test_index = 25 := by
  constructor
  · intro g m
    cases h : m.lookup g.race with
    | none => simp [score_guess, specScore, h]
    | some r =>
      simp only [score_guess, specScore, h]
      rfl
  · decide

/-- Counterexample to claim C2: for the result NOR, VER, PIA, RUS, LEC and the
guess VER, NOR, PIA, LEC, RUS on the same race, `Store::score_guess` returns
7 — 1 for each of the four misplaced-but-present drivers plus 3 for the exact
third position — and not the 5 the claim computes (the repository's own test
asserts `mixed_score == 7`). -/
theorem mixed_guess_scores_seven_not_five :
    score_guess mixed_guess test_index = 7 ∧ ¬ score_guess mixed_guess test_index = 5 := by
  decide

/-- Claim C2 (amended): with a result for the guess's race, a guess whose five
codes are all present in the result but not all at the right position never
receives the parlay bonus, and its score is the exact-position points plus
exactly `WRONG_PLACE` (1 point) per misplaced-but-present driver; in the
mixed fixture this is 1 + 1 + 3 + 1 + 1 = 7. -/
theorem misplaced_present_guess_scoring (g : Guess) (m : List (String × RaceResult))
    (r : RaceResult) (hlk : m.lookup g.race = some r) (hpres : allPresent g r = true)
    (hnex : allExact g r = false) :
    score_guess g m = preBonus g r ∧
      preBonus g r = exactPoints g r + misplacedCount g r * WRONG_PLACE := by
  have hne : preBonus g r ≠ 21 := by
    intro hh
    rw [(preBonus_eq_21_iff g r).1 hh] at hnex
    simp at hnex
  constructor
  · simp only [score_guess, hlk]
    rw [show (3 * CORRECT_PODIUM + 2 * CORRECT_FIVE : Nat) = 21 from rfl, if_neg hne]
  · have hp : ∀ gd ∈ guessPositions g,
        (resultPositions r).any (fun rd => eqIgnoreCase gd rd) = true := by
      simpa [allPresent, List.all_eq_true] using hpres
    have hp1 := hp g.p1 (by simp [guessPositions])
    have hp2 := hp g.p2 (by simp [guessPositions])
    have hp3 := hp g.p3 (by simp [guessPositions])
    have hp4 := hp g.p4 (by simp [guessPositions])
    have hp5 := hp g.p5 (by simp [guessPositions])
    cases h1 : eqIgnoreCase g.p1 r.p1 <;> cases h2 : eqIgnoreCase g.p2 r.p2 <;>
      cases h3 : eqIgnoreCase g.p3 r.p3 <;> cases h4 : eqIgnoreCase g.p4 r.p4 <;>
      cases h5 : eqIgnoreCase g.p5 r.p5 <;>
      simp +decide [preBonus, exactPoints, misplacedCount, posPoints, h1, h2, h3, h4, h5,
        hp1, hp2, hp3, hp4, hp5, CORRECT_PODIUM, CORRECT_FIVE, WRONG_PLACE]

/-- Witness for claim C2's theorem at the mixed fixture of the tests. -/
theorem misplaced_present_guess_scoring_witness :
    score_guess mixed_guess test_index = preBonus mixed_guess test_result ∧
      preBonus mixed_guess test_result =
        exactPoints mixed_guess test_result + misplacedCount mixed_guess test_result * WRONG_PLACE :=
  misplaced_present_guess_scoring mixed_guess test_index test_result (by decide) (by decide)
    (by decide)

/-- Claim C3: for every guess and result, the running total before the bonus
check equals 21 exactly when all five positions match exactly (three podium
hits at 3 and two position-4/5 hits at 6), so `Store::score_guess` adds the
parlay bonus exactly for an all-positions-exact guess and no other
combination of exact, wrong-place and absent contributions reaches 21. -/
theorem parlay_bonus_iff_all_positions_exact (g : Guess) (m : List (String × RaceResult))
    (r : RaceResult) (h : m.lookup g.race = some r) :
    (preBonus g r = 21 ↔ allExact g r = true) ∧
      score_guess g m = preBonus g r + (if allExact g r then PARLAY else 0) := by
  refine ⟨preBonus_eq_21_iff g r, ?_⟩
  simp only [score_guess, h]
  rw [show (3 * CORRECT_PODIUM + 2 * CORRECT_FIVE : Nat) = 21 from rfl]
  by_cases ha : allExact g r = true
  · rw [if_pos ((preBonus_eq_21_iff g r).2 ha), if_pos ha]
  · have hne : preBonus g r ≠ 21 := fun hh => ha ((preBonus_eq_21_iff g r).1 hh)
    rw [if_neg hne, if_neg ha, Nat.add_zero]

/-- Witness for claim C3's theorem at the perfect fixture of the tests. -/
theorem parlay_bonus_iff_all_positions_exact_witness :
    (preBonus perfect_guess test_result = 21 ↔ allExact perfect_guess test_result = true) ∧
      score_guess perfect_guess test_index =
        preBonus perfect_guess test_result +
          (if allExact perfect_guess test_result then PARLAY else 0) :=
  parlay_bonus_iff_all_positions_exact perfect_guess test_index test_result (by decide)

/-- The loop of `Guess::valid` over the five guessed codes: `driver_codes` is
the set of lowercased roster codes, `seen` the lowercased codes already
accepted (`HashSet::insert` returning false on a repeat). -/
def validLoop (driver_codes seen : List String) : List String → Bool
  | [] => true
  | gd :: rest =>
    let code := lower gd
    if code ∈ driver_codes then
      if code ∈ seen then false else validLoop driver_codes (code :: seen) rest
    else false

/-- `Guess::valid` from `models.rs`: each guessed code must be a lowercased
roster code not seen before. -/
def Guess.valid (g : Guess) (drivers : List Driver) : Bool :=
  validLoop (drivers.map (fun d => lower d.code)) [] (guessPositions g)

theorem validLoop_iff (dc : List String) (l : List String) :
    ∀ seen : List String, validLoop dc seen l = true ↔
      ((∀ c ∈ l, lower c ∈ dc) ∧ (l.map lower).Nodup ∧ ∀ c ∈ l, lower c ∉ seen) := by
  induction l with
  | nil => simp [validLoop]
  | cons c rest ih =>
    intro seen
    simp only [validLoop]
    by_cases hdc : lower c ∈ dc
    · by_cases hseen : lower c ∈ seen
      · rw [if_pos hdc, if_pos hseen]
        constructor
        · intro h
          simp at h
        · rintro ⟨-, -, hs⟩
          exact absurd hseen (hs c (List.mem_cons_self c rest))
      · rw [if_pos hdc, if_neg hseen, ih (lower c :: seen)]
        constructor
        · rintro ⟨hin, hnd, hs⟩
          have hs2 : ∀ x ∈ rest, lower x ≠ lower c ∧ lower x ∉ seen := by
            intro x hx
            have hm := hs x hx
            rw [List.mem_cons] at hm
            exact not_or.1 hm
          refine ⟨?_, ?_, ?_⟩
          · intro x hx
            rcases List.mem_cons.1 hx with rfl | hx
            · exact hdc
            · exact hin x hx
          · rw [List.map_cons, List.nodup_cons]
            refine ⟨?_, hnd⟩
            intro hmem
            rcases List.mem_map.1 hmem with ⟨y, hy, hye⟩
            exact (hs2 y hy).1 hye
          · intro x hx
            rcases List.mem_cons.1 hx with rfl | hx
            · exact hseen
            · exact (hs2 x hx).2
        · rintro ⟨hin, hnd, hs⟩
          rw [List.map_cons, List.nodup_cons] at hnd
          obtain ⟨hdup, hnd⟩ := hnd
          refine ⟨?_, hnd, ?_⟩
          · intro x hx
            exact hin x (List.mem_cons_of_mem c hx)
          · intro x hx
            rw [List.mem_cons, not_or]
            refine ⟨?_, hs x (List.mem_cons_of_mem c hx)⟩
            intro hce
            exact hdup (List.mem_map.2 ⟨x, hx, hce⟩)
    · rw [if_neg hdc]
      constructor
      · intro h
        simp at h
      · rintro ⟨hin, -, -⟩
        exact absurd (hin c (List.mem_cons_self c rest)) hdc

/-- Claim C5: `Guess::valid` returns true exactly when each of the five
position codes, compared case-insensitively, equals the code of some roster
driver AND the five codes are pairwise distinct case-insensitively (their
lowercased forms have no duplicate); a repeated code therefore fails even
when every code belongs to the roster. -/
theorem valid_iff_known_and_distinct (g : Guess) (drivers : List Driver) :
    g.valid drivers = true ↔
      ((∀ c ∈ guessPositions g, ∃ d ∈ drivers, eqIgnoreCase c d.code = true) ∧
        ((guessPositions g).map lower).Nodup) := by
  rw [Guess.valid, validLoop_iff]
  constructor
  · rintro ⟨hin, hnd, -⟩
    refine ⟨?_, hnd⟩
    intro c hc
    rcases List.mem_map.1 (hin c hc) with ⟨d, hd, hde⟩
    exact ⟨d, hd, by simp [eqIgnoreCase, hde]⟩
  · rintro ⟨hin, hnd⟩
    refine ⟨?_, hnd, by simp⟩
    intro c hc
    rcases hin c hc with ⟨d, hd, hde⟩
    rw [eqIgnoreCase_iff] at hde
    exact List.mem_map.2 ⟨d, hd, hde.symm⟩

/-- The store errors of csv_db that this code distinguishes: `NoMatch` drives
the upsert fallback, everything else is an I/O-style failure. -/
inductive DbError where
  | noMatch : DbError
  | ioFailure : DbError
deriving DecidableEq

/-- The csv_db `update` primitive as the spec's store contract states it:
replace the first record satisfying the predicate, or report `NoMatch`. -/
def dbUpdate (coll : List Guess) (new_record : Guess) (p : Guess → Bool) :
    Except DbError (List Guess) :=
  match coll with
  | [] => Except.error DbError.noMatch
  | g :: rest =>
    if p g then Except.ok (new_record :: rest)
    else
      match dbUpdate rest new_record p with
      | Except.ok rest2 => Except.ok (g :: rest2)
      | Except.error e => Except.error e

/-- The csv_db `insert` primitive: append a record. -/
def dbInsert (coll : List Guess) (record : Guess) : List Guess := coll ++ [record]

/-- The match predicate of `Store::update_guess`: username equal lower-cased
and race equal case-insensitively to the current race. -/
def upsertMatch (username_lower current_race : String) (g : Guess) : Bool :=
  lower g.username == username_lower && eqIgnoreCase g.race current_race

/-- `Store::update_guess` from `store.rs`: try the update; on `NoMatch` fall
back to inserting the guess; any other failure is reported as an I/O error. -/
def update_guess (coll : List Guess) (guess : Guess) (current_race : String) :
    Except DbError (List Guess) :=
  let username := lower guess.username
  match dbUpdate coll guess (upsertMatch username current_race) with
  | Except.ok coll2 => Except.ok coll2
  | Except.error DbError.noMatch => Except.ok (dbInsert coll guess)
  | Except.error _ => Except.error DbError.ioFailure

/-- The filter of `Store::get_guesses`: an omitted filter matches everything,
a given one is compared case-insensitively. -/
def guessFilter (username race : Option String) (g : Guess) : Bool :=
  (match username with
    | some username => eqIgnoreCase g.username username
    | none => true) &&
    (match race with
      | some race => eqIgnoreCase g.race race
      | none => true)

/-- `Store::get_guesses` from `store.rs`: find, i.e. filter in storage order. -/
def get_guesses (coll : List Guess) (username race : Option String) : List Guess :=
  coll.filter (guessFilter username race)

/-- Claim C10: `get_guesses` returns exactly the stored guesses whose username
and race match the given optional filters case-insensitively (a `none` filter
matches every record), keeps them in storage order (the output is a sublist of
the store), and yields the empty list, not an error, when nothing matches. -/
theorem get_guesses_exactly_the_matches (coll : List Guess) (username race : Option String) :
    (∀ g, g ∈ get_guesses coll username race ↔
        g ∈ coll ∧ (∀ u, username = some u → eqIgnoreCase g.username u = true) ∧
          ∀ r, race = some r → eqIgnoreCase g.race r = true) ∧
      (get_guesses coll username race).Sublist coll ∧
      ((∀ g ∈ coll, guessFilter username race g = false) → get_guesses coll username race = []) := by
  refine ⟨?_, List.filter_sublist coll, ?_⟩
  · intro g
    rw [get_guesses, List.mem_filter]
    constructor
    · rintro ⟨hg, hf⟩
      rw [guessFilter.eq_def, Bool.and_eq_true] at hf
      refine ⟨hg, ?_, ?_⟩
      · intro u hu
        rw [hu] at hf
        exact hf.1
      · intro r hr
        rw [hr] at hf
        exact hf.2
    · rintro ⟨hg, hu, hr⟩
      refine ⟨hg, ?_⟩
      rw [guessFilter.eq_def, Bool.and_eq_true]
      constructor
      · cases username with
        | none => rfl
        | some u => exact hu u rfl
      · cases race with
        | none => rfl
        | some r => exact hr r rfl
  · intro hnone
    rw [get_guesses, List.filter_eq_nil_iff]
    intro g hg
    simp [hnone g hg]

/-- A record belongs to the (username, race) pair of a guess, both compared
case-insensitively. -/
def matchesPair (username race : String) (g : Guess) : Bool :=
  eqIgnoreCase g.username username && eqIgnoreCase g.race race

theorem dbUpdate_cases (coll : List Guess) (new_record : Guess) (p : Guess → Bool)
    (hcount : (coll.filter p).length ≤ 1) :
    (dbUpdate coll new_record p = Except.error DbError.noMatch ∧ coll.filter p = []) ∨
      (∃ coll2, dbUpdate coll new_record p = Except.ok coll2 ∧
        (p new_record = true → coll2.filter p = [new_record]) ∧
        coll2.length = coll.length ∧ coll.filter p ≠ []) := by
  induction coll with
  | nil => exact Or.inl ⟨rfl, rfl⟩
  | cons g rest ih =>
    cases hg : p g with
    | true =>
      right
      refine ⟨new_record :: rest, by simp [dbUpdate, hg], ?_, by simp, by simp [List.filter_cons, hg]⟩
      intro hp
      have hrest : rest.filter p = [] := by
        rw [List.filter_cons, if_pos (by simp [hg])] at hcount
        exact List.length_eq_zero.1 (by simpa using hcount)
      simp [List.filter_cons, hp, hrest]
    | false =>
      have hfc : (g :: rest).filter p = rest.filter p := by
        simp [List.filter_cons, hg]
      rcases ih (by rw [hfc] at hcount; exact hcount) with ⟨hnm, hfe⟩ | ⟨c2, hok, hf, hl, hne⟩
      · left
        refine ⟨?_, by rw [hfc, hfe]⟩
        simp [dbUpdate, hg, hnm]
      · right
        refine ⟨g :: c2, by simp [dbUpdate, hg, hok], ?_, by simp [hl], by rw [hfc]; exact hne⟩
        intro hp
        simp [List.filter_cons, hg, hf hp]

theorem update_guess_upsert (coll : List Guess) (guess : Guess) (current_race : String)
    (hrace : eqIgnoreCase guess.race current_race = true)
    (hcount : (coll.filter (matchesPair guess.username guess.race)).length ≤ 1) :
    ∃ coll2, update_guess coll guess current_race = Except.ok coll2 ∧
      coll2.filter (matchesPair guess.username guess.race) = [guess] ∧
      (coll.filter (matchesPair guess.username guess.race) = [] → coll2 = dbInsert coll guess) ∧
      (coll.filter (matchesPair guess.username guess.race) ≠ [] → coll2.length = coll.length) := by
  have hlow : lower guess.race = lower current_race := (eqIgnoreCase_iff _ _).1 hrace
  have hpred : ∀ g, matchesPair guess.username guess.race g =
      upsertMatch (lower guess.username) current_race g := by
    intro g
    simp [matchesPair, upsertMatch, eqIgnoreCase, hlow]
  have hfilter : ∀ l : List Guess, l.filter (matchesPair guess.username guess.race) =
      l.filter (upsertMatch (lower guess.username) current_race) := by
    intro l
    exact List.filter_congr fun x _ => hpred x
  have hself : upsertMatch (lower guess.username) current_race guess = true := by
    simp [upsertMatch, eqIgnoreCase, hlow]
  rcases dbUpdate_cases coll guess (upsertMatch (lower guess.username) current_race)
      (by rw [← hfilter]; exact hcount) with ⟨hnm, hfe⟩ | ⟨c2, hok, hf, hl, hne⟩
  · refine ⟨dbInsert coll guess, ?_, ?_, fun _ => rfl, ?_⟩
    · simp only [update_guess, hnm]
    · rw [dbInsert, List.filter_append, hfilter, hfe]
      simp [matchesPair, eqIgnoreCase_refl]
    · intro hcontra
      rw [hfilter, hfe] at hcontra
      exact absurd rfl hcontra
  · refine ⟨c2, ?_, ?_, ?_, fun _ => hl⟩
    · simp only [update_guess, hok]
    · rw [hfilter, hf hself]
    · intro hcontra
      rw [hfilter] at hcontra
      exact absurd hcontra hne

/-- Claim C4: `Store::update_guess` is an upsert — it first tries an update
matching the username lower-cased and the current race case-insensitively,
and only on `NoMatch` inserts. Starting from a store holding at most one
record for the guess's (username, race) pair, any successful submit leaves
exactly one record for that pair; when no prior record matched, the guess is
appended, and when one matched it is replaced in place; and a second submit
for the same user and race leaves exactly one stored guess holding the second
call's contents. -/
theorem submit_upsert_single_record (coll : List Guess) (guess g2 : Guess)
    (current_race : String) (h1 : eqIgnoreCase guess.race current_race = true)
    (h2 : eqIgnoreCase g2.race current_race = true)
    (h3 : eqIgnoreCase g2.username guess.username = true)
    (hcount : (coll.filter (matchesPair guess.username guess.race)).length ≤ 1) :
    ∃ coll1 coll2,
      update_guess coll guess current_race = Except.ok coll1 ∧
      coll1.filter (matchesPair guess.username guess.race) = [guess] ∧
      (coll.filter (matchesPair guess.username guess.race) = [] → coll1 = dbInsert coll guess) ∧
      (coll.filter (matchesPair guess.username guess.race) ≠ [] → coll1.length = coll.length) ∧
      update_guess coll1 g2 current_race = Except.ok coll2 ∧
      coll2.filter (matchesPair g2.username g2.race) = [g2] := by
  obtain ⟨coll1, hok1, hfil1, hins1, hupd1⟩ := update_guess_upsert coll guess current_race h1 hcount
  have hpair : ∀ g, matchesPair g2.username g2.race g = matchesPair guess.username guess.race g := by
    intro g
    have hu : lower g2.username = lower guess.username := (eqIgnoreCase_iff _ _).1 h3
    have hr : lower g2.race = lower guess.race := by
      rw [(eqIgnoreCase_iff _ _).1 h2, (eqIgnoreCase_iff _ _).1 h1]
    simp [matchesPair, eqIgnoreCase, hu, hr]
  have hcount2 : (coll1.filter (matchesPair g2.username g2.race)).length ≤ 1 := by
    rw [List.filter_congr fun x _ => hpair x, hfil1]
    simp
  obtain ⟨coll2, hok2, hfil2, -, -⟩ := update_guess_upsert coll1 g2 current_race h2 hcount2
  exact ⟨coll1, coll2, hok1, hfil1, hins1, hupd1, hok2, hfil2⟩

/-- Witness for claim C4's theorem: two submits for user test and race
Test GP starting from the empty store. -/
theorem submit_upsert_single_record_witness :
    ∃ coll1 coll2,
      update_guess ([] : List Guess) perfect_guess test_result.race = Except.ok coll1 ∧
      coll1.filter (matchesPair perfect_guess.username perfect_guess.race) = [perfect_guess] ∧
      (List.filter (matchesPair perfect_guess.username perfect_guess.race) ([] : List Guess) = [] →
        coll1 = dbInsert [] perfect_guess) ∧
      (List.filter (matchesPair perfect_guess.username perfect_guess.race) ([] : List Guess) ≠ [] →
        coll1.length = List.length ([] : List Guess)) ∧
      update_guess coll1 mixed_guess test_result.race = Except.ok coll2 ∧
      coll2.filter (matchesPair mixed_guess.username mixed_guess.race) = [mixed_guess] :=
  submit_upsert_single_record [] perfect_guess mixed_guess test_result.race (by decide)
    (by decide) (by decide) (by decide)

/-- `Guess::normalize` from `models.rs`: uppercase every string field in
place — race, username and the five position codes. -/
def Guess.normalize (g : Guess) : Guess :=
  { race := upperStr g.race, username := upperStr g.username, p1 := upperStr g.p1,
    p2 := upperStr g.p2, p3 := upperStr g.p3, p4 := upperStr g.p4, p5 := upperStr g.p5 }

/-- The outcome of a submit, as the `play_submit` handler distinguishes them. -/
inductive SubmitOutcome where
  | authError : SubmitOutcome
  | validationError : SubmitOutcome
  | success : SubmitOutcome
  | storeError : SubmitOutcome
deriving DecidableEq

/-- The store-facing core of `play_submit` from `controllers.rs` (the JSON
`play` handler of `api.rs` runs the same flow): authorization check, race
re-stamp to the current event's name, normalization, validation, then the
upsert; template and HTTP rendering are outside the core. Returns the outcome
and the guesses collection after the call. -/
def play_submit (coll : List Guess) (user_username : String) (form_data : Guess)
    (drivers : List Driver) (current_event_name : String) : SubmitOutcome × List Guess :=
  if ! eqIgnoreCase form_data.username user_username then (SubmitOutcome.authError, coll)
  else
    let guess := Guess.normalize { form_data with race := current_event_name }
    if ! guess.valid drivers then (SubmitOutcome.validationError, coll)
    else
      match update_guess coll guess current_event_name with
      | Except.ok coll2 => (SubmitOutcome.success, coll2)
      | Except.error _ => (SubmitOutcome.storeError, coll)

/-- `Store::add_user` from `store.rs`: reject a username already present
case-insensitively, otherwise insert the user with the username lower-cased
(the token and the password hash are inputs here; their generation is outside
the core). -/
def add_user (users : List User) (username hashed_password token country : String) :
    Except DbError (List User) :=
  if (users.filter (fun u => eqIgnoreCase u.username username)).isEmpty then
    Except.ok (users ++
      [{ token := token, username := lower username, password := hashed_password,
         country := country }])
  else Except.error DbError.ioFailure

/-- The user lookup of `Store::validate_user`: the first stored user whose
username matches case-insensitively. -/
def find_user_by_name (users : List User) (username : String) : Option User :=
  (users.filter (fun u => eqIgnoreCase u.username username)).head?

/-- The five-driver roster fixture. -/
def drivers5 : List Driver :=
  [{ number := 4, code := "NOR", name := "Lando Norris" },
    { number := 1, code := "VER", name := "Max Verstappen" },
    { number := 81, code := "PIA", name := "Oscar Piastri" },
    { number := 63, code := "RUS", name := "George Russell" },
    { number := 16, code := "LEC", name := "Charles Leclerc" }]

/-- A submitting user's name, in the lower case a login form would carry. -/
def submit_user : String := "alice"

/-- A well-formed submitted form: five distinct roster codes in lower case. -/
def submit_form : Guess :=
  { race := "anything", username := "alice", p1 := "nor", p2 := "ver", p3 := "pia",
    p4 := "rus", p5 := "lec" }

/-- What `play_submit` persists for `submit_form` when the current event is
Test GP: every field uppercased by `Guess::normalize`. -/
def submitted_guess : Guess :=
  { race := "TEST GP", username := "ALICE", p1 := "NOR", p2 := "VER", p3 := "PIA",
    p4 := "RUS", p5 := "LEC" }

/-- A form with a repeated driver code: invalid however the roster looks. -/
def dup_form : Guess :=
  { race := "anything", username := "alice", p1 := "nor", p2 := "nor", p3 := "pia",
    p4 := "rus", p5 := "lec" }

/-- Claim C6: a submitted guess that fails validation (after race re-stamping
and normalization) is rejected with a validation error and the stored guesses
are exactly what they were before the call: no update and no insert happens. -/
theorem invalid_guess_not_persisted (coll : List Guess) (user : String) (form : Guess)
    (drivers : List Driver) (ev : String)
    (hauth : eqIgnoreCase form.username user = true)
    (hval : Guess.valid (Guess.normalize { form with race := ev }) drivers = false) :
    play_submit coll user form drivers ev = (SubmitOutcome.validationError, coll) := by
  simp [play_submit, hauth, hval]

/-- Witness for claim C6's theorem: a duplicated-code form against the
five-driver roster leaves the empty store empty. -/
theorem invalid_guess_not_persisted_witness :
    play_submit [] submit_user dup_form drivers5 test_result.race =
      (SubmitOutcome.validationError, ([] : List Guess)) :=
  invalid_guess_not_persisted [] submit_user dup_form drivers5 test_result.race (by decide)
    (by decide)

theorem lookup_isSome_insertAssoc (m : List (String × RaceResult)) (k : String) (v : RaceResult)
    (k2 : String) :
    (((insertAssoc m k v).lookup k2).isSome = true) ↔
      (k2 = k ∨ (m.lookup k2).isSome = true) := by
  induction m with
  | nil =>
    rw [insertAssoc]
    by_cases h : k2 = k
    · subst h
      simp [List.lookup]
    · have hb : (k2 == k) = false := beq_false_of_ne h
      simp [List.lookup, hb, h]
  | cons kv rest ih =>
    obtain ⟨k1, v1⟩ := kv
    by_cases hk : k1 = k
    · subst hk
      rw [insertAssoc, if_pos (by simp)]
      by_cases h2 : k2 = k1
      · subst h2
        simp [List.lookup]
      · have hb : (k2 == k1) = false := beq_false_of_ne h2
        simp [List.lookup, hb, h2]
    · rw [insertAssoc, if_neg (by simpa using hk)]
      by_cases h2 : k2 = k1
      · subst h2
        simp [List.lookup, hk]
      · have hb : (k2 == k1) = false := beq_false_of_ne h2
        simp only [List.lookup, hb]
        exact ih

theorem lookup_isSome_foldl (rs : List RaceResult) :
    ∀ (acc : List (String × RaceResult)) (k : String),
      (((rs.foldl (fun m r => insertAssoc m r.race r) acc).lookup k).isSome = true) ↔
        ((acc.lookup k).isSome = true ∨ ∃ r ∈ rs, r.race = k) := by
  induction rs with
  | nil => simp
  | cons r rest ih =>
    intro acc k
    rw [List.foldl_cons, ih, lookup_isSome_insertAssoc]
    constructor
    · rintro (⟨h | h⟩ | h)
      · exact Or.inr ⟨r, by simp, h.symm⟩
      · exact Or.inl h
      · obtain ⟨r2, hr2, he⟩ := h
        exact Or.inr ⟨r2, by simp [hr2], he⟩
    · rintro (h | ⟨r2, hr2, he⟩)
      · exact Or.inl (Or.inr h)
      · rcases List.mem_cons.1 hr2 with rfl | hr2
        · exact Or.inl (Or.inl he.symm)
        · exact Or.inr ⟨r2, hr2, he⟩

/-- A key is present in `Store::normalized_results` exactly when some result
carries that race name, character for character. -/
theorem lookup_normalized_isSome (rs : List RaceResult) (k : String) :
    (((normalized_results rs).lookup k).isSome = true) ↔ ∃ r ∈ rs, r.race = k := by
  rw [normalized_results, lookup_isSome_foldl]
  simp [List.lookup]

/-- Counterexample to claim C7: submitting a valid guess while the current
event is named Test GP persists the race as TEST GP — `Guess::normalize`
uppercases the re-stamped race — which differs from the canonical event name,
and the as-is result-index lookup then misses a result recorded under
Test GP, so the stored guess scores 0. -/
theorem submit_race_not_canonical_cex :
    (play_submit [] submit_user submit_form drivers5 test_result.race).1 =
        SubmitOutcome.success ∧
      (play_submit [] submit_user submit_form drivers5 test_result.race).2.map Guess.race =
        [upperStr test_result.race] ∧
      upperStr test_result.race ≠ test_result.race ∧
      (play_submit [] submit_user submit_form drivers5 test_result.race).2.map
          (fun g => score_guess g (normalized_results [test_result])) =
        [0] := by
  decide

/-- Claim C7 (amended): on every successful submit the race field is forced to
the current event's name and then uppercased by normalization, so the guess
handed to the upsert carries `upperStr` of the canonical event name as its
race, and the as-is result-index lookup finds a result for that stored race
exactly when some result is recorded under that uppercased name (in
particular whenever the canonical event name is already upper-case). -/
theorem submit_race_uppercased (coll : List Guess) (user : String) (form : Guess)
    (drivers : List Driver) (ev : String) (coll2 : List Guess)
    (h : play_submit coll user form drivers ev = (SubmitOutcome.success, coll2)) :
    ∃ g : Guess, g.race = upperStr ev ∧ update_guess coll g ev = Except.ok coll2 ∧
      ∀ rs : List RaceResult,
        (((normalized_results rs).lookup g.race).isSome = true) ↔
          ∃ r ∈ rs, r.race = upperStr ev := by
  cases hauth : eqIgnoreCase form.username user with
  | false =>
    rw [play_submit] at h
    rw [hauth] at h
    simp at h
  | true =>
    rw [play_submit] at h
    rw [hauth] at h
    simp only [Bool.not_true, Bool.false_eq_true, if_false] at h
    cases hval : Guess.valid (Guess.normalize { form with race := ev }) drivers with
    | false =>
      rw [hval] at h
      simp at h
    | true =>
      rw [hval] at h
      simp only [Bool.not_true, Bool.false_eq_true, if_false] at h
      cases hupd : update_guess coll (Guess.normalize { form with race := ev }) ev with
      | ok c =>
        rw [hupd] at h
        simp only [Prod.mk.injEq] at h
        refine ⟨Guess.normalize { form with race := ev }, rfl, ?_, ?_⟩
        · rw [hupd, h.2]
        · intro rs
          simpa using lookup_normalized_isSome rs (upperStr ev)
      | error e =>
        rw [hupd] at h
        simp at h

/-- Witness for claim C7's theorem: the concrete Test GP submit. -/
theorem submit_race_uppercased_witness :
    ∃ g : Guess, g.race = upperStr test_result.race ∧
      update_guess [] g test_result.race = Except.ok [submitted_guess] ∧
      ∀ rs : List RaceResult,
        (((normalized_results rs).lookup g.race).isSome = true) ↔
          ∃ r ∈ rs, r.race = upperStr test_result.race :=
  submit_race_uppercased [] submit_user submit_form drivers5 test_result.race
    [submitted_guess] (by decide)

/-- Counterexample to claim C8: the guess record persisted by a submit stores
the username upper-cased — `Guess::normalize` uppercases every field — so the
guess written for user alice carries the username ALICE, which is not its
lower-cased form. -/
theorem guess_username_uppercased_cex :
    (play_submit [] submit_user submit_form drivers5 test_result.race).2.map Guess.username =
        [upperStr submit_user] ∧
      upperStr submit_user ≠ lower (upperStr submit_user) := by
  decide

/-- Claim C8 (amended): a user record created by registration stores the
username lower-cased, while the guess record written by submit stores the
username upper-cased (`Guess::normalize`); every username comparison — the
duplicate-registration check, the login lookup, the guess filtering and the
upsert matching — is case-insensitive. -/
theorem username_case_handling :
    (∀ (users : List User) (un pw tok c : String) (users2 : List User),
        add_user users un pw tok c = Except.ok users2 →
          users2 = users ++
            [{ token := tok, username := lower un, password := pw, country := c }]) ∧
      (∀ (form : Guess) (ev : String),
        (Guess.normalize { form with race := ev }).username = upperStr form.username) ∧
      (∀ (users : List User) (u1 u2 pw tok c : String), lower u1 = lower u2 →
        add_user users u1 pw tok c = add_user users u2 pw tok c) ∧
      (∀ (users : List User) (u1 u2 : String), lower u1 = lower u2 →
        find_user_by_name users u1 = find_user_by_name users u2) ∧
      (∀ (coll : List Guess) (u1 u2 : String) (race : Option String), lower u1 = lower u2 →
        get_guesses coll (some u1) race = get_guesses coll (some u2) race) ∧
      (∀ (u1 u2 race : String) (g : Guess), lower u1 = lower u2 →
        upsertMatch (lower u1) race g = upsertMatch (lower u2) race g) := by
  refine ⟨?_, ?_, ?_, ?_, ?_, ?_⟩
  · intro users un pw tok c users2 h
    rw [add_user] at h
    split at h
    · cases h
      rfl
    · simp at h
  · intro form ev
    rfl
  · intro users u1 u2 pw tok c h
    simp [add_user, eqIgnoreCase, h]
  · intro users u1 u2 h
    simp [find_user_by_name, eqIgnoreCase, h]
  · intro coll u1 u2 race h
    rw [get_guesses, get_guesses]
    refine List.filter_congr ?_
    intro g hg
    simp [guessFilter.eq_def, eqIgnoreCase, h]
  · intro u1 u2 race g h
    simp [upsertMatch, h]

/-- The summed points of one user's scored guesses (username as stored). -/
def userTotal (scored : List ScoredGuess) (u : String) : Nat :=
  ((scored.filter (fun sg => sg.guess.username == u)).map ScoredGuess.points).sum

/-- Stable descending insertion: the inserted element goes before the first
element whose points it reaches, so earlier input stays ahead of equal-point
later input. -/
def insertDescStable (x : String × Nat) : List (String × Nat) → List (String × Nat)
  | [] => [x]
  | y :: ys => if y.2 ≤ x.2 then x :: y :: ys else y :: insertDescStable x ys

/-- Stable insertion sort by points descending, no secondary key. -/
def sortDescStable (l : List (String × Nat)) : List (String × Nat) :=
  l.foldr insertDescStable []

/-- The grouping step the index and leaderboard handlers run before calling
`Store::leaderboard` (`into_group_map_by` in `controllers.rs` and `api.rs`):
a HashMap from username to that user's scored guesses, whose iteration order
is arbitrary. Modelled as a relation: `groups` is any ordering of the
distinct usernames of `scored`, each key carrying exactly that user's scored
guesses in input order. -/
def IsGroupingOf (groups : List (String × List ScoredGuess)) (scored : List ScoredGuess) :
    Prop :=
  List.Perm (groups.map Prod.fst) (scored.map (fun sg => sg.guess.username)).dedup ∧
    ∀ p ∈ groups, p.2 = scored.filter (fun sg => sg.guess.username == p.1)

/-- Modelled from the spec: `Store::leaderboard` is called by the index
handler of `controllers.rs` and by the leaderboard handler of `api.rs`, but
its body is not among the repository's files. Spec section 4.4: sum each
group's points and sort the groups by total points descending, a stable sort
with no secondary key, in the order the grouping map yields the groups; rank
is assigned strictly by sorted position. -/
def leaderboard (grouped : List (String × List ScoredGuess)) : List (String × Nat) :=
  sortDescStable (grouped.map (fun p => (p.1, (p.2.map ScoredGuess.points).sum)))

theorem mem_insertDescStable (x : String × Nat) (l : List (String × Nat)) (z : String × Nat) :
    z ∈ insertDescStable x l ↔ z = x ∨ z ∈ l := by
  induction l with
  | nil => simp [insertDescStable]
  | cons y ys ih =>
    rw [insertDescStable]
    by_cases hc : y.2 ≤ x.2
    · rw [if_pos hc]
      simp [List.mem_cons, or_comm, or_assoc, or_left_comm]
    · rw [if_neg hc]
      simp only [List.mem_cons, ih]
      tauto

theorem pairwise_insertDescStable (x : String × Nat) (l : List (String × Nat))
    (h : l.Pairwise (fun a b => b.2 ≤ a.2)) :
    (insertDescStable x l).Pairwise (fun a b => b.2 ≤ a.2) := by
  induction l with
  | nil => simp [insertDescStable]
  | cons y ys ih =>
    rw [List.pairwise_cons] at h
    obtain ⟨hy, hys⟩ := h
    rw [insertDescStable]
    by_cases hc : y.2 ≤ x.2
    · rw [if_pos hc, List.pairwise_cons]
      refine ⟨?_, List.pairwise_cons.2 ⟨hy, hys⟩⟩
      intro z hz
      rcases List.mem_cons.1 hz with rfl | hz
      · exact hc
      · exact le_trans (hy z hz) hc
    · rw [if_neg hc, List.pairwise_cons]
      refine ⟨?_, ih hys⟩
      intro z hz
      rcases (mem_insertDescStable x ys z).1 hz with rfl | hz
      · omega
      · exact hy z hz

theorem perm_insertDescStable (x : String × Nat) (l : List (String × Nat)) :
    List.Perm (insertDescStable x l) (x :: l) := by
  induction l with
  | nil => simp [insertDescStable]
  | cons y ys ih =>
    rw [insertDescStable]
    by_cases hc : y.2 ≤ x.2
    · rw [if_pos hc]
    · rw [if_neg hc]
      exact (List.Perm.cons y ih).trans (List.Perm.swap x y ys)

theorem pairwise_sortDescStable (l : List (String × Nat)) :
    (sortDescStable l).Pairwise (fun a b => b.2 ≤ a.2) := by
  induction l with
  | nil => simp [sortDescStable]
  | cons a l ih =>
    rw [sortDescStable, List.foldr_cons]
    exact pairwise_insertDescStable a _ ih

theorem perm_sortDescStable (l : List (String × Nat)) : List.Perm (sortDescStable l) l := by
  induction l with
  | nil => simp [sortDescStable]
  | cons a l ih =>
    rw [sortDescStable, List.foldr_cons]
    exact (perm_insertDescStable a _).trans (List.Perm.cons a ih)

/-- A one-race guess fixture for the leaderboard example. -/
def lbGuess (u : String) : Guess :=
  { race := "R", username := u, p1 := "A", p2 := "B", p3 := "C", p4 := "D", p5 := "E" }

/-- Scored guesses of three users with totals 10, 25, 25: user ann appears
first (non-consecutively, totalling 10), then the tied users bob then cam. -/
def lb_input : List ScoredGuess :=
  [{ guess := lbGuess ("ann"), points := 4 },
    { guess := lbGuess ("bob"), points := 25 },
    { guess := lbGuess ("ann"), points := 6 },
    { guess := lbGuess ("cam"), points := 25 }]

/-- A grouping of `lb_input` whose iteration order happens to follow the
first-encounter order ann, bob, cam. -/
def lb_groups_fwd : List (String × List ScoredGuess) :=
  [(("ann" : String), [{ guess := lbGuess ("ann"), points := 4 },
      { guess := lbGuess ("ann"), points := 6 }]),
    (("bob" : String), [{ guess := lbGuess ("bob"), points := 25 }]),
    (("cam" : String), [{ guess := lbGuess ("cam"), points := 25 }])]

/-- A grouping of the same `lb_input` in the iteration order cam, bob, ann:
equally legitimate, since the grouping HashMap orders its keys arbitrarily. -/
def lb_groups_rev : List (String × List ScoredGuess) :=
  [(("cam" : String), [{ guess := lbGuess ("cam"), points := 25 }]),
    (("bob" : String), [{ guess := lbGuess ("bob"), points := 25 }]),
    (("ann" : String), [{ guess := lbGuess ("ann"), points := 4 },
      { guess := lbGuess ("ann"), points := 6 }])]

/-- Counterexample to claim C9: the grouping that feeds the leaderboard is a
HashMap whose iteration order is arbitrary, so ties are not broken by the
order usernames were first encountered: two legitimate groupings of the very
10/25/25 input of the claim's example sort to different tie orders, and under
the cam-first grouping the output is not the claimed
[25 first-seen, 25 second-seen, 10]. -/
theorem leaderboard_tie_order_not_first_encounter :
    IsGroupingOf lb_groups_fwd lb_input ∧ IsGroupingOf lb_groups_rev lb_input ∧
      leaderboard lb_groups_fwd =
        [(("bob" : String), 25), (("cam" : String), 25), (("ann" : String), 10)] ∧
      leaderboard lb_groups_rev =
        [(("cam" : String), 25), (("bob" : String), 25), (("ann" : String), 10)] ∧
      leaderboard lb_groups_rev ≠
        [(("bob" : String), 25), (("cam" : String), 25), (("ann" : String), 10)] := by
  refine ⟨?_, ?_, by decide, by decide, by decide⟩ <;> exact ⟨by decide, by decide⟩

/-- Claim C9 (amended): for every legitimate grouping of the scored guesses —
any key order, since the grouping map is unordered — the leaderboard sums
each user's points (every output entry carries that user's total over the
whole input) and sorts the groups by total points descending, rank being
strictly the sorted position; the order among users with equal totals follows
the grouping map's iteration order and is not determined by the input
encounter order. -/
theorem leaderboard_sorted_totals (groups : List (String × List ScoredGuess))
    (scored : List ScoredGuess) (h : IsGroupingOf groups scored) :
    (leaderboard groups).Pairwise (fun a b => b.2 ≤ a.2) ∧
      List.Perm (leaderboard groups) (groups.map (fun p => (p.1, userTotal scored p.1))) ∧
      ∀ p ∈ leaderboard groups, p.2 = userTotal scored p.1 := by
  obtain ⟨-, hgroups⟩ := h
  have hmap : groups.map (fun p => (p.1, (p.2.map ScoredGuess.points).sum)) =
      groups.map (fun p => (p.1, userTotal scored p.1)) := by
    refine List.map_congr_left ?_
    intro p hp
    rw [hgroups p hp, userTotal]
  refine ⟨pairwise_sortDescStable _, ?_, ?_⟩
  · rw [leaderboard, hmap]
    exact perm_sortDescStable _
  · intro p hp
    rw [leaderboard] at hp
    have hmem := (perm_sortDescStable
      (groups.map (fun p => (p.1, (p.2.map ScoredGuess.points).sum)))).mem_iff.1 hp
    rw [hmap] at hmem
    rcases List.mem_map.1 hmem with ⟨q, -, rfl⟩
    rfl

/-- Witness for claim C9's theorem at the ann-bob-cam grouping of the
10/25/25 example input. -/
theorem leaderboard_sorted_totals_witness :
    (leaderboard lb_groups_fwd).Pairwise (fun a b => b.2 ≤ a.2) ∧
      List.Perm (leaderboard lb_groups_fwd)
        (lb_groups_fwd.map (fun p => (p.1, userTotal lb_input p.1))) ∧
      ∀ p ∈ leaderboard lb_groups_fwd, p.2 = userTotal lb_input p.1 :=
  leaderboard_sorted_totals lb_groups_fwd lb_input ⟨by decide, by decide⟩

end WBC
